import Mathlib

/-!
Verification of the agent runtime (AgentRuntime) against its specification.

The source is a TypeScript class.  Each definition below is a shallow
embedding of one source function, translated line by line: strings are
modelled as lists of characters, the tokenizer as an abstract pair of
encode/decode functions, and the asynchronous network calls as oracle
functions supplied as parameters.  Loops with a data-dependent iteration
count carry an explicit fuel argument bounded by the loop's own measure,
so every definition is executable and every concrete instance evaluates
by decide or rfl.
-/

/-- A tokenizer in the style of tiktoken: encode turns a text into a token
stream, and each token decodes to a fixed character string (byte-level BPE
decoding concatenates per-token strings). -/
structure Tokenizer where
  encode : List Char → List Nat
  decodeTok : Nat → List Char

/-- Decoding a token stream concatenates the per-token strings, as in
byte-level BPE decoding. -/
def Tokenizer.decode (tk : Tokenizer) (ts : List Nat) : List Char :=
  (ts.map tk.decodeTok).flatten

/-- Embedding of AgentRuntime.trimTokens (source lines 489-500):
encode the context; if the token count exceeds maxTokens, replace the
token array by tokens.reverse().slice(maxTokens).reverse() and decode it
back; otherwise return the context unchanged.  The slice(maxTokens) on
the reversed array is modelled by reverse-drop-reverse, exactly as in
the source. -/
def trimTokens (tk : Tokenizer) (context : List Char) (maxTokens : Nat) : List Char :=
  let tokens := tk.encode context
  if maxTokens < tokens.length then
    tk.decode ((tokens.reverse.drop maxTokens).reverse)
  else
    context

/-- A concrete one-token-per-character tokenizer used for evaluations:
each character encodes to its code point and decodes back to itself. -/
def tkChar : Tokenizer where
  encode s := s.map Char.toNat
  decodeTok n := [Char.ofNat n]

/-- C10: for every tokenizer (model encoding), budget and text whose token
count is at most the budget, trimTokens returns the input text unchanged. -/
theorem trimTokens_id_below_budget (tk : Tokenizer) (context : List Char) (maxTokens : Nat)
    (h : (tk.encode context).length ≤ maxTokens) :
    trimTokens tk context maxTokens = context := by
  unfold trimTokens
  simp [Nat.not_lt.mpr h]

/-- Witness for C10 at a concrete input: the three-character text "abc"
under the one-token-per-character tokenizer with budget 5 is unchanged. -/
theorem trimTokens_id_below_budget_witness :
    (tkChar.encode ['a', 'b', 'c']).length ≤ 5 ∧
    trimTokens tkChar ['a', 'b', 'c'] 5 = ['a', 'b', 'c'] :=
  ⟨by decide, trimTokens_id_below_budget tkChar ['a', 'b', 'c'] 5 (by decide)⟩

/-- C1 (evidence of the code bug): on the text "abc" (three tokens under the
one-token-per-character tokenizer) with budget 1, trimTokens returns "ab",
whose token count 2 exceeds the budget, and which is not the trailing
one-token text "c" the specification requires: the reverse-slice-reverse
in the source keeps the FIRST length - maxTokens tokens instead of the
last maxTokens. -/
theorem trimTokens_exceeds_budget :
    trimTokens tkChar ['a', 'b', 'c'] 1 = ['a', 'b'] ∧
    1 < (tkChar.encode (trimTokens tkChar ['a', 'b', 'c'] 1)).length ∧
    trimTokens tkChar ['a', 'b', 'c'] 1 ≠ ['c'] := by
  decide

/-- Embedding of AgentRuntime.completion (source lines 416-480).  The
network is an oracle mapping the attempt number to the content obtained by
that attempt; none models a thrown fetch error, a non-ok response, or a
response without content.  The loop runs with triesLeft counting down from
5; on failure retryLength (initially 1000) is doubled and then slept, and
once triesLeft is exhausted the function throws.  The embedding returns
the result together with the list of delays slept. -/
def completionLoop (oracle : Nat → Option String) :
    Nat → Nat → Nat → Except String String × List Nat
  | _, _, 0 =>
    (Except.error
      "Failed to complete message after 5 tries, likely a network or API key issue", [])
  | attempt, retryLength, triesLeft + 1 =>
    match oracle attempt with
    | some content => (Except.ok content, [])
    | none =>
      let rest := completionLoop oracle (attempt + 1) (retryLength * 2) triesLeft
      (rest.1, retryLength * 2 :: rest.2)

/-- Embedding of a full AgentRuntime.completion call: attempt 0, base
delay 1000, five tries. -/
def completion (oracle : Nat → Option String) : Except String String × List Nat :=
  completionLoop oracle 0 1000 5

/-- If every attempt available to the loop fails, completionLoop returns the
error, sleeping a doubling delay after every failed attempt. -/
theorem completionLoop_exhausted (oracle : Nat → Option String) :
    ∀ (n a r : Nat), (∀ i, a ≤ i → i < a + n → oracle i = none) →
      completionLoop oracle a r n =
        (Except.error
          "Failed to complete message after 5 tries, likely a network or API key issue",
         (List.range n).map (fun j => r * 2 ^ (j + 1))) := by
  intro n
  induction n with
  | zero => intro a r _; rfl
  | succ n ih =>
    intro a r h
    have ha : oracle a = none := h a le_rfl (by omega)
    have hrest := ih (a + 1) (r * 2) (fun i h1 h2 => h i (by omega) (by omega))
    simp only [completionLoop, ha, hrest, List.range_succ_eq_map, List.map_cons, List.map_map]
    congr 1
    simp only [List.cons.injEq]
    constructor
    · ring
    · apply List.map_congr_left
      intro j _
      simp only [Function.comp_apply, Nat.succ_eq_add_one]
      ring

/-- If completionLoop succeeds, some attempt within the bound produced the
returned content, all earlier attempts failed, and the delays slept before
it form the doubling sequence from the base delay. -/
theorem completionLoop_ok (oracle : Nat → Option String) :
    ∀ (n a r : Nat) (c : String), (completionLoop oracle a r n).1 = Except.ok c →
      ∃ i, i < n ∧ oracle (a + i) = some c ∧ (∀ j, j < i → oracle (a + j) = none) ∧
        (completionLoop oracle a r n).2 = (List.range i).map (fun j => r * 2 ^ (j + 1)) := by
  intro n
  induction n with
  | zero => intro a r c h; exact absurd h (by simp [completionLoop])
  | succ n ih =>
    intro a r c h
    cases ho : oracle a with
    | some content =>
      have hc : content = c := by
        simp only [completionLoop, ho] at h
        exact Except.ok.inj h
      refine ⟨0, by omega, by simpa [hc] using ho, by omega, ?_⟩
      simp [completionLoop, ho]
    | none =>
      have h1 : (completionLoop oracle (a + 1) (r * 2) n).1 = Except.ok c := by
        simpa only [completionLoop, ho] using h
      obtain ⟨i, hi, hok, hnone, hdel⟩ := ih (a + 1) (r * 2) c h1
      refine ⟨i + 1, by omega, by rw [show a + (i + 1) = a + 1 + i by omega]; exact hok, ?_, ?_⟩
      · intro j hj
        cases j with
        | zero => exact ho
        | succ k => rw [show a + (k + 1) = a + 1 + k by omega]; exact hnone k (by omega)
      · simp only [completionLoop, ho, hdel, List.range_succ_eq_map, List.map_cons, List.map_map]
        simp only [List.cons.injEq]
        constructor
        · ring
        · apply List.map_congr_left
          intro j _
          simp only [Function.comp_apply, Nat.succ_eq_add_one]
          ring

/-- C7: the base completion call makes at most five attempts; if all five
fail it returns the error (having slept delays 2000, 4000, 8000, 16000,
32000: the delay variable starts at 1000 and doubles after every failed
attempt); if it returns content, some attempt i within the first five
produced exactly that content, every earlier attempt failed, and the
delays slept are the doubling sequence for the i failed attempts. -/
theorem completion_retry_policy (oracle : Nat → Option String) :
    ((∀ i, i < 5 → oracle i = none) →
      completion oracle =
        (Except.error
          "Failed to complete message after 5 tries, likely a network or API key issue",
         [2000, 4000, 8000, 16000, 32000])) ∧
    (∀ c, (completion oracle).1 = Except.ok c →
      ∃ i, i < 5 ∧ oracle i = some c ∧ (∀ j, j < i → oracle j = none) ∧
        (completion oracle).2 = (List.range i).map (fun j => 1000 * 2 ^ (j + 1))) := by
  constructor
  · intro h
    have := completionLoop_exhausted oracle 5 0 1000 (fun i _ h2 => h i (by omega))
    rw [completion, this]
    rfl
  · intro c h
    obtain ⟨i, hi, hok, hnone, hdel⟩ := completionLoop_ok oracle 5 0 1000 c h
    exact ⟨i, hi, by simpa using hok, fun j hj => by simpa using hnone j hj, hdel⟩

/-- Witness for C7: with an oracle that always fails, completion returns
the error after the five doubling delays. -/
theorem completion_retry_policy_witness :
    completion (fun _ => none) =
      (Except.error
        "Failed to complete message after 5 tries, likely a network or API key issue",
       [2000, 4000, 8000, 16000, 32000]) :=
  (completion_retry_policy (fun _ => none)).1 (fun _ _ => rfl)

/-- An evaluator as AgentRuntime.evaluate consumes it: its name, whether a
handler is attached, and the outcome of its validate predicate on the
message/state pair under consideration. -/
structure REvaluator where
  name : String
  hasHandler : Bool
  isValid : Bool
  deriving DecidableEq

/-- Embedding of the validation fan-out at the start of AgentRuntime.evaluate
(source lines 884-898): an evaluator survives when it has a handler and its
validate returned true; the survivors are the evaluators offered to the
model. -/
def evaluateOffered (evs : List REvaluator) : List REvaluator :=
  evs.filter (fun e => e.hasHandler && e.isValid)

/-- Embedding of AgentRuntime.evaluate (source lines 883-933).  modelChoice
abstracts the completion call plus parseJsonArrayFromText: from the offered
evaluator names the model returns the list of names it judges relevant.
The first component is the list of names offered to the model, the second
the names of the evaluators whose handler is executed.  When nothing passes
validation the function returns early: no model call and no execution.
Note the execution filter ranges over ALL registered evaluators, exactly as
in the source, not over the validated subset. -/
def evaluateRun (evs : List REvaluator) (modelChoice : List String → List String) :
    List String × List String :=
  let offered := evaluateOffered evs
  if offered.isEmpty then ([], [])
  else
    let parsed := modelChoice (offered.map (fun e => e.name))
    (offered.map (fun e => e.name),
     ((evs.filter (fun e => parsed.contains e.name)).filter (fun e => e.hasHandler)).map
       (fun e => e.name))

/-- C2 counterexample: with evaluator A (handler attached, validate true)
and evaluator B (handler attached, validate false), and a model answer
naming B, evaluate offers only A to the model yet executes B, an evaluator
that failed validation. -/
theorem evaluate_executes_unvalidated :
    evaluateRun [⟨"A", true, true⟩, ⟨"B", true, false⟩] (fun _ => ["B"]) =
      (["A"], ["B"]) := by
  decide

/-- C2 amended: only evaluators with a handler that passed validation are
offered to the model; when none passes, nothing is offered and nothing is
executed; and otherwise the executed handlers are exactly those of the
registered evaluators with a handler whose name appears in the subset the
model returned, whether or not they passed validation. -/
theorem evaluate_offer_execute (evs : List REvaluator)
    (modelChoice : List String → List String) (n : String) :
    (evaluateOffered evs = [] → evaluateRun evs modelChoice = ([], [])) ∧
    (n ∈ (evaluateRun evs modelChoice).1 ↔
      ∃ e ∈ evs, e.name = n ∧ e.hasHandler ∧ e.isValid) ∧
    (evaluateOffered evs ≠ [] →
      (n ∈ (evaluateRun evs modelChoice).2 ↔
        ∃ e ∈ evs, e.name = n ∧ e.hasHandler ∧
          n ∈ modelChoice ((evaluateOffered evs).map (fun e => e.name)))) := by
  refine ⟨fun h => by simp [evaluateRun, h], ?_, ?_⟩
  · by_cases h : evaluateOffered evs = []
    · simp only [evaluateRun, h]
      simp only [evaluateOffered] at h
      constructor
      · intro hx; exact absurd hx (by simp)
      · rintro ⟨e, he, hn, hh, hv⟩
        have : e ∈ evs.filter (fun e => e.hasHandler && e.isValid) :=
          List.mem_filter.mpr ⟨he, by simp [hh, hv]⟩
        rw [h] at this
        exact absurd this (by simp)
    · simp only [evaluateRun, evaluateOffered, List.isEmpty_iff, h, if_neg]
      simp only [evaluateOffered] at h
      rw [if_neg h]
      simp only [List.mem_map, List.mem_filter, Bool.and_eq_true]
      constructor
      · rintro ⟨e, ⟨he, hh, hv⟩, hn⟩
        exact ⟨e, he, hn, by simp [hh], by simp [hv]⟩
      · rintro ⟨e, he, hn, hh, hv⟩
        exact ⟨e, ⟨he, by simpa using hh, by simpa using hv⟩, hn⟩
  · intro h
    simp only [evaluateRun, List.isEmpty_iff]
    rw [if_neg h]
    simp only [List.mem_map, List.mem_filter]
    constructor
    · rintro ⟨e, ⟨⟨he, hp⟩, hh⟩, hn⟩
      refine ⟨e, he, hn, by simpa using hh, ?_⟩
      have := List.elem_iff.mp hp
      rwa [hn] at this
    · rintro ⟨e, he, hn, hh, hp⟩
      refine ⟨e, ⟨⟨he, List.elem_iff.mpr (by rwa [hn])⟩, by simpa using hh⟩, hn⟩

/-- Witness for C2's amended theorem: with the single validated evaluator A
and the model echoing the offered names, A's handler executes. -/
theorem evaluate_offer_execute_witness :
    "A" ∈ (evaluateRun [(⟨"A", true, true⟩ : REvaluator)] (fun l => l)).2 :=
  ((evaluate_offer_execute [(⟨"A", true, true⟩ : REvaluator)] (fun l => l) "A").2.2
      (by decide)).mpr
    ⟨⟨"A", true, true⟩, by decide, rfl, by decide, by decide⟩

/-- A stored fact as composeState consumes it: its id and its embedding
vector. -/
structure FactRec where
  id : Nat
  embedding : List Int
  deriving DecidableEq

/-- The recent-facts page size of composeState (source line 1012):
Math.ceil(conversationLength / 2), computed on naturals. -/
def recentFactsCount (conversationLength : Nat) : Nat :=
  (conversationLength + 1) / 2

/-- Embedding of the relevant-facts computation of AgentRuntime.composeState
(source lines 1041-1057): when the recent-facts page holds strictly more
than factsCount records, search facts by the embedding of the most recent
fact (index 0 of the newest-first page) and drop every search result whose
id already appears in the page; otherwise the list stays empty.  search
abstracts factManager.searchMemoriesByEmbedding. -/
def composeRelevantFacts (factsCount : Nat) (search : List Int → List FactRec)
    (recentFactsData : List FactRec) : List FactRec :=
  if h : factsCount < recentFactsData.length then
    (search (recentFactsData.get ⟨0, by omega⟩).embedding).filter
      (fun fact => !(recentFactsData.any (fun recentFact => recentFact.id == fact.id)))
  else []

/-- Modelled from the spec words, for comparison with the source (C3): the
similarity search fires when the recent-facts page is exactly full. -/
def composeRelevantFactsSpec (factsCount : Nat) (search : List Int → List FactRec)
    (recentFactsData : List FactRec) : List FactRec :=
  if h : recentFactsData.length = factsCount ∧ 0 < recentFactsData.length then
    (search (recentFactsData.get ⟨0, h.2⟩).embedding).filter
      (fun fact => !(recentFactsData.any (fun recentFact => recentFact.id == fact.id)))
  else []

/-- A concrete fact search used in the C3 counterexample. -/
def factSearchEx : List Int → List FactRec := fun _ => [⟨2, [0]⟩]

/-- C3 counterexample: with page size 1 and a recent-facts page of exactly
one fact (a full page), the source's strict greater-than guard issues no
similarity search and yields the empty relevant-facts list, while the
specified behaviour would return the deduplicated search result. -/
theorem composeRelevantFacts_full_page_counterexample :
    composeRelevantFacts 1 factSearchEx [⟨1, [5]⟩] = [] ∧
    composeRelevantFactsSpec 1 factSearchEx [⟨1, [5]⟩] = [⟨2, [0]⟩] ∧
    composeRelevantFacts 1 factSearchEx [⟨1, [5]⟩] ≠
      composeRelevantFactsSpec 1 factSearchEx [⟨1, [5]⟩] := by
  decide

/-- C3 amended: with recentFactsCount = ceil(conversationLength / 2), the
similarity search fires only when the recent-facts read returns strictly
more than recentFactsCount facts; at a full page of exactly recentFactsCount
(and below) the relevant-facts list is empty; in the strict case the result
is exactly the search over the most recent fact's embedding minus every
fact whose id appears in the recent page. -/
theorem composeRelevantFacts_trigger (conversationLength : Nat)
    (search : List Int → List FactRec) (recent : List FactRec) :
    (recent.length ≤ recentFactsCount conversationLength →
      composeRelevantFacts (recentFactsCount conversationLength) search recent = []) ∧
    (∀ h : recentFactsCount conversationLength < recent.length, ∀ g : FactRec,
      g ∈ composeRelevantFacts (recentFactsCount conversationLength) search recent ↔
        (g ∈ search (recent.get ⟨0, by omega⟩).embedding ∧ ∀ r ∈ recent, r.id ≠ g.id)) := by
  constructor
  · intro h
    rw [composeRelevantFacts, dif_neg (by omega)]
  · intro h g
    rw [composeRelevantFacts, dif_pos h]
    simp only [List.mem_filter, Bool.not_eq_true', List.any_eq_false, beq_iff_eq]

/-- Witness for C3's amended theorem: page size ceil(2/2) = 1, a page of
two facts, and a search returning one duplicate and one new fact; the new
fact with id 2 is a member of the relevant-facts list. -/
theorem composeRelevantFacts_trigger_witness :
    (⟨2, [0]⟩ : FactRec) ∈
      composeRelevantFacts (recentFactsCount 2) (fun _ => [⟨1, [9]⟩, ⟨2, [0]⟩])
        [⟨1, [5]⟩, ⟨3, [6]⟩] :=
  ((composeRelevantFacts_trigger 2 (fun _ => [⟨1, [9]⟩, ⟨2, [0]⟩])
      [⟨1, [5]⟩, ⟨3, [6]⟩]).2 (by decide) ⟨2, [0]⟩).mpr ⟨by decide, by decide⟩

/-- The eight field names of the actionState object built after validation
in AgentRuntime.composeState (source lines 1405-1432). -/
def actionStateKeys : List String :=
  ["actionNames", "actions", "actionExamples", "evaluatorsData", "evaluators",
   "evaluatorNames", "evaluatorExamples", "providers"]

/-- A JavaScript object modelled by its key-lookup function; spreading b
over a lets b win on every key b carries. -/
def spreadObj {α : Type} (a b : String → Option α) : String → Option α :=
  fun k =>
    match b k with
    | some v => some v
    | none => a k

/-- Embedding of the initialState construction of composeState (source
lines 1251-1378): the computed fields with additionalKeys spread last, so
additionalKeys wins inside initialState. -/
def initialStateObj {α : Type} (computed additionalKeys : String → Option α) :
    String → Option α :=
  spreadObj computed additionalKeys

/-- Embedding of the final merge of composeState (source line 1434):
initialState spread first, then actionState, whose keys are exactly
actionStateKeys with the catalog values computed from the validated
actions, evaluators and providers. -/
def composeStateObj {α : Type} (computed additionalKeys : String → Option α)
    (catalog : String → α) : String → Option α :=
  spreadObj (initialStateObj computed additionalKeys)
    (fun k => if k ∈ actionStateKeys then some (catalog k) else none)

/-- C4 counterexample: a caller-supplied additionalKeys entry for the
catalog field "actions" is overridden by the actionState merge: the final
state carries the computed catalog value 2, not the caller value 1. -/
theorem composeState_extraKeys_overridden :
    composeStateObj (fun _ => (none : Option Nat))
        (fun k => if k = "actions" then some 1 else none) (fun _ => 2) "actions" = some 2 ∧
    composeStateObj (fun _ => (none : Option Nat))
        (fun k => if k = "actions" then some 1 else none) (fun _ => 2) "actions" ≠ some 1 := by
  decide

/-- C4 amended: for every key outside the eight actionState catalog keys,
the caller-supplied additionalKeys value wins over any computed field, and
absent keys fall back to the computed value; on the eight catalog keys the
actionState merge wins, overriding even caller-supplied values. -/
theorem composeState_merge_precedence {α : Type} (computed additionalKeys : String → Option α)
    (catalog : String → α) (k : String) :
    (k ∉ actionStateKeys → ∀ v, additionalKeys k = some v →
      composeStateObj computed additionalKeys catalog k = some v) ∧
    (k ∉ actionStateKeys → additionalKeys k = none →
      composeStateObj computed additionalKeys catalog k = computed k) ∧
    (k ∈ actionStateKeys →
      composeStateObj computed additionalKeys catalog k = some (catalog k)) := by
  refine ⟨?_, ?_, ?_⟩
  · intro hk v hv
    simp [composeStateObj, spreadObj, initialStateObj, hk, hv]
  · intro hk hv
    simp [composeStateObj, spreadObj, initialStateObj, hk, hv]
  · intro hk
    simp [composeStateObj, spreadObj, initialStateObj, hk]

/-- Witness for C4's amended theorem: on the non-catalog key "topic" the
caller-supplied value 1 wins over the computed value 0. -/
theorem composeState_merge_precedence_witness :
    composeStateObj (fun _ => some (0 : Nat)) (fun k => if k = "topic" then some 1 else none)
      (fun _ => 2) "topic" = some 1 :=
  (composeState_merge_precedence (fun _ => some (0 : Nat))
      (fun k => if k = "topic" then some 1 else none) (fun _ => 2) "topic").1
    (by decide) 1 (by simp)

/-- A stored record of the messages table as the embedding cache sees it:
the stored text and its embedding vector. -/
structure MemRecord where
  text : String
  embedding : List Int
  deriving DecidableEq

/-- Modelled from the spec: MemoryManager.getCachedEmbeddings lives in
memory.ts, which is not among the provided sources; per the spec the cache
lookup returns the prior records of the messages table whose stored text
exactly matches the input. -/
def getCachedEmbeddings (records : List MemRecord) (input : String) : List MemRecord :=
  records.filter (fun r => r.text == input)

/-- Embedding of AgentRuntime.retrieveCachedEmbedding (source lines
817-824): the embedding of the first exact-text match when one exists. -/
def retrieveCachedEmbedding (records : List MemRecord) (input : String) :
    Option (List Int) :=
  match getCachedEmbeddings records input with
  | [] => none
  | r :: _ => some r.embedding

/-- Embedding of AgentRuntime.embed (source lines 768-815).  hasOpenAIKey
selects the branch: without a key the local llama service answers with no
cache lookup at all; with a key the cache is consulted first and only on a
miss is the remote embeddings endpoint called.  The second component counts
the remote embedding calls issued by this invocation; embed writes nothing
back to the store. -/
def embed (hasOpenAIKey : Bool) (llama remote : String → List Int)
    (records : List MemRecord) (input : String) : List Int × Nat :=
  if !hasOpenAIKey then (llama input, 0)
  else
    match retrieveCachedEmbedding records input with
    | some v => (v, 0)
    | none => (remote input, 1)

/-- C5 counterexample: on a store holding no record whose text matches the
input, two embed calls with byte-identical input issue two remote embedding
calls, not at most one: embed never writes the fetched vector back, so the
second call misses the cache again. -/
theorem embed_twice_two_remote_calls :
    (embed true (fun _ => []) (fun _ => [7]) [] "x").2 +
        (embed true (fun _ => []) (fun _ => [7]) [] "x").2 = 2 ∧
    ¬((embed true (fun _ => []) (fun _ => [7]) [] "x").2 +
        (embed true (fun _ => []) (fun _ => [7]) [] "x").2 ≤ 1) := by
  decide

/-- C5 amended: with an OpenAI key, each embed invocation issues at most
one remote call; the cache is consulted before requesting: on a hit the
stored vector is reused with no remote call, on a miss the remote vector is
returned with exactly one remote call; and a hit occurs whenever some
stored record's text exactly matches the input.  Calling twice with
byte-identical input therefore returns the same vector, but issues one
remote call per call on a store without a matching record, because embed
stores nothing back. -/
theorem embed_cache_behaviour (llama remote : String → List Int)
    (records : List MemRecord) (input : String) :
    ((embed true llama remote records input).2 ≤ 1) ∧
    (∀ v, retrieveCachedEmbedding records input = some v →
      embed true llama remote records input = (v, 0)) ∧
    (retrieveCachedEmbedding records input = none →
      embed true llama remote records input = (remote input, 1)) ∧
    (∀ r ∈ records, r.text = input → retrieveCachedEmbedding records input ≠ none) := by
  refine ⟨?_, ?_, ?_, ?_⟩
  · cases h : retrieveCachedEmbedding records input with
    | none => simp [embed, h]
    | some v => simp [embed, h]
  · intro v hv
    simp [embed, hv]
  · intro hv
    simp [embed, hv]
  · intro r hr htext
    have hm : r ∈ getCachedEmbeddings records input :=
      List.mem_filter.mpr ⟨hr, by simp [htext]⟩
    intro hnone
    cases hg : getCachedEmbeddings records input with
    | nil => rw [hg] at hm; exact absurd hm (by simp)
    | cons a l => simp [retrieveCachedEmbedding, hg] at hnone

/-- Witness for C5's amended theorem: on a store holding a record with the
exact text, embed reuses the stored vector and makes no remote call. -/
theorem embed_cache_behaviour_witness :
    embed true (fun _ => []) (fun _ => [7]) [⟨"x", [3]⟩] "x" = ([3], 0) :=
  (embed_cache_behaviour (fun _ => []) (fun _ => [7]) [⟨"x", [3]⟩] "x").2.1 [3] (by decide)

/-- Substring test: true when small occurs as a contiguous substring of
big, as the JavaScript String.includes does. -/
def hasSub (big small : List Char) : Bool :=
  small.isPrefixOf big ||
    match big with
    | [] => false
    | _ :: bs => hasSub bs small

/-- JavaScript replace with a plain one-character pattern removes only the
first occurrence of the separator. -/
def stripFirstUnderscore : List Char → List Char
  | [] => []
  | c :: cs => if c = '_' then cs else c :: stripFirstUnderscore cs

/-- The normalization processActions applies to the chosen name and to
every registered name and simile (source lines 841-857): lowercase, then
remove the first underscore. -/
def normalizeName (s : String) : List Char :=
  stripFirstUnderscore (s.data.map Char.toLower)

/-- An action as processActions consumes it: its name, its similes, and
whether a handler is attached. -/
structure RAction where
  name : String
  similes : List String
  hasHandler : Bool
  deriving DecidableEq

/-- The bidirectional containment test of processActions: the normalized
candidate contains the normalized chosen name or vice versa. -/
def nameMatches (normalizedChosen : List Char) (candidate : String) : Bool :=
  hasSub (normalizeName candidate) normalizedChosen ||
    hasSub normalizedChosen (normalizeName candidate)

/-- Embedding of the action lookup of AgentRuntime.processActions (source
lines 841-864): first the bidirectional substring test against every
registered name; if none matched, the same test against every simile of
every action; first match wins. -/
def findMatchingAction (actions : List RAction) (chosen : String) : Option RAction :=
  let normalized := normalizeName chosen
  match actions.find? (fun a => nameMatches normalized a.name) with
  | some a => some a
  | none => actions.find? (fun a => a.similes.any (fun s => nameMatches normalized s))

/-- Embedding of AgentRuntime.processActions (source lines 831-875),
returning the action whose handler is invoked: none when the response
carries no action name, when no registered action matches (the source logs
a warning and returns, raising nothing), or when the matched action has no
handler. -/
def processActions (actions : List RAction) (responseAction : Option String) :
    Option RAction :=
  match responseAction with
  | none => none
  | some chosen =>
    match findMatchingAction actions chosen with
    | none => none
    | some a => if a.hasHandler then some a else none

/-- C8: with the registered action FOLLOW_ROOM carrying alias "follow" and
an attached handler, the model-chosen name "follow_room" resolves to
FOLLOW_ROOM (lowercase, first underscore stripped, bidirectional substring
containment over names, aliases as fallback), while the chosen name
"unknown_action_xyz" matches nothing: no handler is invoked and the total
function returns none rather than raising. -/
theorem processActions_fuzzy_resolution :
    processActions [⟨"FOLLOW_ROOM", ["follow"], true⟩] (some "follow_room") =
      some ⟨"FOLLOW_ROOM", ["follow"], true⟩ ∧
    processActions [⟨"FOLLOW_ROOM", ["follow"], true⟩] (some "unknown_action_xyz") =
      none := by
  decide

/-- A message attachment, with the text field that the redaction block
mutates. -/
structure Attachment where
  id : Nat
  text : String
  deriving DecidableEq

/-- A fetched recent message as the redaction block consumes it: its
timestamp and its attachments. -/
structure RMessage where
  createdAt : Int
  attachments : List Attachment
  deriving DecidableEq

/-- The destructive update applied to a stale message: the text of every one
of its attachments is overwritten with the hidden marker. -/
def hideAttachments (m : RMessage) : RMessage :=
  { m with attachments := m.attachments.map (fun a => { a with text := "[Hidden]" }) }

/-- Embedding of the attachment-redaction block of AgentRuntime.composeState
(source lines 1086-1112), with the in-place array reversal and the
attachment mutations rendered as explicit state passing: the first
component is the recentMessagesData array as it stands after the block
(the same array object the returned state carries), the second the
computed allAttachments list.  messageAttachments is the current message's
own attachment list, the initial value of allAttachments, kept when no
recent message carries an attachment. -/
def redactAttachments (messageAttachments : List Attachment) (msgs : List RMessage) :
    List RMessage × List Attachment :=
  match msgs.find? (fun m => !m.attachments.isEmpty) with
  | none => (msgs, messageAttachments)
  | some lastMessageWithAttachment =>
    let oneHourBefore := lastMessageWithAttachment.createdAt - 60 * 60 * 1000
    let updated := msgs.reverse.map
      (fun m => if oneHourBefore ≤ m.createdAt then m else hideAttachments m)
    (updated, (updated.map (fun m => m.attachments)).flatten)

/-- In a newest-first list, the first message carrying an attachment has the
greatest timestamp among all messages carrying attachments. -/
theorem find_first_attachment_newest (msgs : List RMessage)
    (hs : msgs.Pairwise (fun a b => b.createdAt ≤ a.createdAt)) :
    ∀ last, msgs.find? (fun m => !m.attachments.isEmpty) = some last →
      ∀ m ∈ msgs, m.attachments ≠ [] → m.createdAt ≤ last.createdAt := by
  induction msgs with
  | nil => intro last h; simp at h
  | cons x xs ih =>
    intro last hfind m hm hatt
    by_cases hx : (!x.attachments.isEmpty) = true
    · rw [List.find?_cons_of_pos (p := fun (n : RMessage) => !n.attachments.isEmpty) _ hx] at hfind
      injection hfind with hlx
      subst hlx
      rcases List.mem_cons.mp hm with rfl | hmxs
      · exact le_rfl
      · exact (List.pairwise_cons.mp hs).1 m hmxs
    · rw [List.find?_cons_of_neg (p := fun (n : RMessage) => !n.attachments.isEmpty) _ hx] at hfind
      rcases List.mem_cons.mp hm with rfl | hmxs
      · have hx2 : m.attachments = [] := by
          simpa [List.isEmpty_iff] using hx
        exact absurd hx2 hatt
      · exact ih (List.pairwise_cons.mp hs).2 last hfind m hmxs hatt

/-- C9: when some fetched recent message carries an attachment, the block
reverses the recent-messages array and destructively overwrites with
"[Hidden]" the text of every attachment on messages dated more than one
hour before the newest attachment-bearing message; messages at or after
that bound are kept untouched; the array the returned state stores as
recentMessagesData is exactly this reversed, redacted array. -/
theorem composeState_redacts_stale_attachments (messageAttachments : List Attachment)
    (msgs : List RMessage)
    (hsorted : msgs.Pairwise (fun a b => b.createdAt ≤ a.createdAt))
    (m0 : RMessage) (hm0 : m0 ∈ msgs) (hatt : m0.attachments ≠ []) :
    ∃ last ∈ msgs, last.attachments ≠ [] ∧
      (∀ m ∈ msgs, m.attachments ≠ [] → m.createdAt ≤ last.createdAt) ∧
      (redactAttachments messageAttachments msgs).1 =
        msgs.reverse.map (fun m =>
          if last.createdAt - 60 * 60 * 1000 ≤ m.createdAt then m else hideAttachments m) ∧
      (∀ m ∈ (redactAttachments messageAttachments msgs).1,
        m.createdAt < last.createdAt - 60 * 60 * 1000 →
          ∀ a ∈ m.attachments, a.text = "[Hidden]") ∧
      (∀ m ∈ (redactAttachments messageAttachments msgs).1,
        last.createdAt - 60 * 60 * 1000 ≤ m.createdAt → m ∈ msgs) := by
  cases hfind : msgs.find? (fun m => !m.attachments.isEmpty) with
  | none =>
    exfalso
    have := List.find?_eq_none.mp hfind m0 hm0
    simp [List.isEmpty_iff, hatt] at this
  | some last =>
    have hlastmem : last ∈ msgs := List.mem_of_find?_eq_some hfind
    have hlastp := List.find?_some hfind
    have hlastatt : last.attachments ≠ [] := by
      simpa [List.isEmpty_iff] using hlastp
    have hnewest := find_first_attachment_newest msgs hsorted last hfind
    have hupd : (redactAttachments messageAttachments msgs).1 =
        msgs.reverse.map (fun m =>
          if last.createdAt - 60 * 60 * 1000 ≤ m.createdAt then m
          else hideAttachments m) := by
      rw [redactAttachments, hfind]
    refine ⟨last, hlastmem, hlastatt, hnewest, hupd, ?_, ?_⟩
    · intro m hm hold a ha
      rw [hupd] at hm
      obtain ⟨n, hn, hmn⟩ := List.mem_map.mp hm
      by_cases hcase : last.createdAt - 60 * 60 * 1000 ≤ n.createdAt
      · rw [if_pos hcase] at hmn
        subst hmn
        omega
      · rw [if_neg hcase] at hmn
        subst hmn
        obtain ⟨b, _, hb⟩ := List.mem_map.mp ha
        rw [← hb]
    · intro m hm hrecent
      rw [hupd] at hm
      obtain ⟨n, hn, hmn⟩ := List.mem_map.mp hm
      by_cases hcase : last.createdAt - 60 * 60 * 1000 ≤ n.createdAt
      · rw [if_pos hcase] at hmn
        subst hmn
        exact List.mem_reverse.mp hn
      · rw [if_neg hcase] at hmn
        subst hmn
        simp only [hideAttachments] at hrecent
        omega

/-- Concrete two-message timeline for the C9 witness: the newest message
carries a fresh attachment, the other is over an hour older and carries a
stale one. -/
def msgsEx : List RMessage :=
  [⟨10000000, [⟨1, "photo"⟩]⟩, ⟨0, [⟨2, "old"⟩]⟩]

/-- Witness for C9 at the concrete timeline: the redaction theorem applies
with its sortedness and attachment hypotheses discharged by computation. -/
theorem composeState_redacts_stale_attachments_witness :
    ∃ last ∈ msgsEx, last.attachments ≠ [] ∧
      (∀ m ∈ msgsEx, m.attachments ≠ [] → m.createdAt ≤ last.createdAt) ∧
      (redactAttachments [] msgsEx).1 =
        msgsEx.reverse.map (fun m =>
          if last.createdAt - 60 * 60 * 1000 ≤ m.createdAt then m else hideAttachments m) ∧
      (∀ m ∈ (redactAttachments [] msgsEx).1,
        m.createdAt < last.createdAt - 60 * 60 * 1000 →
          ∀ a ∈ m.attachments, a.text = "[Hidden]") ∧
      (∀ m ∈ (redactAttachments [] msgsEx).1,
        last.createdAt - 60 * 60 * 1000 ≤ m.createdAt → m ∈ msgsEx) :=
  composeState_redacts_stale_attachments [] msgsEx (by decide)
    ⟨10000000, [⟨1, "photo"⟩]⟩ (by decide) (by decide)

/-- JavaScript String.slice on a character list: a negative index counts
from the end, indices clamp to the string bounds, and a start at or past
the stop yields the empty string. -/
def jsSlice (s : List Char) (start stop : Int) : List Char :=
  let len : Int := s.length
  let a : Int := if start < 0 then max (len + start) 0 else min start len
  let b : Int := if stop < 0 then max (len + stop) 0 else min stop len
  if a < b then (s.drop a.toNat).take (b - a).toNat else []

/-- Embedding of the loop of AgentRuntime.splitChunks (source lines
555-568).  i is the loop counter over TOKEN indices; fuel bounds the number
of remaining iterations (each iteration advances i by chunkSize, so for
positive chunkSize, tokens.length iterations always suffice; the source
loop does not terminate at chunkSize = 0).  Exactly as in the source, the
bleed slices index the CHARACTER stream of content with these token
indices. -/
def splitChunksAux (tk : Tokenizer) (content : List Char) (tokens : List Nat)
    (chunkSize bleed : Nat) : Nat → Nat → List (List Char)
  | _, 0 => []
  | i, fuel + 1 =>
    if i < tokens.length then
      let decodedChunk := tk.decode ((tokens.drop i).take chunkSize)
      let startBleed :=
        if 0 < i then jsSlice content ((i : Int) - (bleed : Int)) (i : Int) else []
      let endBleed :=
        if i + chunkSize < tokens.length then
          jsSlice content ((i + chunkSize : Nat) : Int) ((i + chunkSize + bleed : Nat) : Int)
        else []
      (startBleed ++ decodedChunk ++ endBleed) ::
        splitChunksAux tk content tokens chunkSize bleed (i + chunkSize) fuel
    else []

/-- Embedding of AgentRuntime.splitChunks (source lines 544-571): encode
the content, then emit chunkSize-token windows padded with the bleed
slices. -/
def splitChunks (tk : Tokenizer) (content : List Char) (chunkSize bleed : Nat) :
    List (List Char) :=
  splitChunksAux tk content (tk.encode content) chunkSize bleed 0
    (tk.encode content).length

/-- Modelled from the spec words, for comparison with the source (C6): the
bleed around a chunk is taken at the chunk's CHARACTER boundaries, so it
consists of the literal neighboring characters of the decoded core within
the original text. -/
def splitChunksSpecAux (tk : Tokenizer) (content : List Char) (tokens : List Nat)
    (chunkSize bleed : Nat) : Nat → Nat → List (List Char)
  | _, 0 => []
  | i, fuel + 1 =>
    if i < tokens.length then
      let decodedChunk := tk.decode ((tokens.drop i).take chunkSize)
      let charStart := (tk.decode (tokens.take i)).length
      let charStop := (tk.decode (tokens.take (i + chunkSize))).length
      let startBleed :=
        if 0 < i then
          jsSlice content ((charStart : Int) - (bleed : Int)) (charStart : Int)
        else []
      let endBleed :=
        if i + chunkSize < tokens.length then
          jsSlice content (charStop : Int) ((charStop + bleed : Nat) : Int)
        else []
      (startBleed ++ decodedChunk ++ endBleed) ::
        splitChunksSpecAux tk content tokens chunkSize bleed (i + chunkSize) fuel
    else []

/-- The spec-words variant of splitChunks: identical windows, bleed taken at
character boundaries. -/
def splitChunksSpec (tk : Tokenizer) (content : List Char) (chunkSize bleed : Nat) :
    List (List Char) :=
  splitChunksSpecAux tk content (tk.encode content) chunkSize bleed 0
    (tk.encode content).length

/-- The token windows that the splitChunks loop decodes, mirroring its
iteration. -/
def chunkTokenSpans (tokens : List Nat) (chunkSize : Nat) : Nat → Nat → List (List Nat)
  | _, 0 => []
  | i, fuel + 1 =>
    if i < tokens.length then
      (tokens.drop i).take chunkSize ::
        chunkTokenSpans tokens chunkSize (i + chunkSize) fuel
    else []

/-- A concrete multi-character-token tokenizer for the C6 counterexample:
the text "abcd" encodes to two tokens decoding to "ab" and "cd". -/
def tkPair : Tokenizer where
  encode s := if s = ['a', 'b', 'c', 'd'] then [0, 1] else []
  decodeTok n := if n = 0 then ['a', 'b'] else ['c', 'd']

/-- C6 counterexample: on "abcd" with two two-character tokens, window size
1 and bleed 1, the source pads the first chunk "ab" with the character at
index 1 of the text, the letter b inside the chunk itself, not with its
literal neighboring character c; the spec-words variant differs. -/
theorem splitChunks_bleed_counterexample :
    splitChunks tkPair ['a', 'b', 'c', 'd'] 1 1 =
      [['a', 'b', 'b'], ['a', 'c', 'd']] ∧
    splitChunksSpec tkPair ['a', 'b', 'c', 'd'] 1 1 =
      [['a', 'b', 'c'], ['b', 'c', 'd']] ∧
    splitChunks tkPair ['a', 'b', 'c', 'd'] 1 1 ≠
      splitChunksSpec tkPair ['a', 'b', 'c', 'd'] 1 1 := by
  decide

/-- Decoding distributes over concatenation of token streams. -/
theorem Tokenizer.decode_append (tk : Tokenizer) (a b : List Nat) :
    tk.decode (a ++ b) = tk.decode a ++ tk.decode b := by
  simp [Tokenizer.decode]

/-- Decoding a flattened list of token spans decodes each span. -/
theorem Tokenizer.decode_flatten (tk : Tokenizer) (l : List (List Nat)) :
    tk.decode l.flatten = (l.map tk.decode).flatten := by
  induction l with
  | nil => simp [Tokenizer.decode]
  | cons a l ih => simp only [List.flatten_cons, List.map_cons, tk.decode_append, ih]

/-- The token windows of the loop concatenate to the token stream from the
loop counter onwards. -/
theorem chunkTokenSpans_flatten (tokens : List Nat) (chunkSize : Nat)
    (hpos : 0 < chunkSize) :
    ∀ fuel i, tokens.length - i ≤ fuel →
      (chunkTokenSpans tokens chunkSize i fuel).flatten = tokens.drop i := by
  intro fuel
  induction fuel with
  | zero =>
    intro i h
    have hle : tokens.length ≤ i := by omega
    simp [chunkTokenSpans, List.drop_eq_nil_of_le hle]
  | succ fuel ih =>
    intro i h
    by_cases hi : i < tokens.length
    · simp only [chunkTokenSpans]
      rw [if_pos hi, List.flatten_cons, ih (i + chunkSize) (by omega)]
      rw [← List.drop_drop]
      exact List.take_append_drop chunkSize (tokens.drop i)
    · simp only [chunkTokenSpans]
      rw [if_neg hi]
      simp [List.drop_eq_nil_of_le (by omega : tokens.length ≤ i)]

/-- When every token of a stream decodes to a single character, decoding
preserves length. -/
theorem decode_length_single (tk : Tokenizer) :
    ∀ ts : List Nat, (∀ t ∈ ts, (tk.decodeTok t).length = 1) →
      (tk.decode ts).length = ts.length := by
  intro ts
  induction ts with
  | nil => intro _; rfl
  | cons a l ih =>
    intro h
    have ha : (tk.decodeTok a).length = 1 := h a (by simp)
    have hl := ih (fun t ht => h t (by simp [ht]))
    simp only [Tokenizer.decode, List.map_cons, List.flatten_cons, List.length_append,
      List.length_cons] at *
    omega

/-- With single-character tokens, the character position of token index i
inside the decoded text is i itself (clamped to the stream length). -/
theorem decode_take_length_single (tk : Tokenizer) (ts : List Nat)
    (hone : ∀ t ∈ ts, (tk.decodeTok t).length = 1) (i : Nat) :
    (tk.decode (ts.take i)).length = min i ts.length := by
  rw [decode_length_single tk (ts.take i) (fun t ht => hone t (List.mem_of_mem_take ht))]
  simp [List.length_take]

/-- With single-character tokens the source loop and the spec-words loop
agree: token indices coincide with character boundaries. -/
theorem splitChunksAux_eq_spec_single (tk : Tokenizer) (content : List Char)
    (tokens : List Nat) (chunkSize bleed : Nat)
    (hone : ∀ t ∈ tokens, (tk.decodeTok t).length = 1) :
    ∀ fuel i, splitChunksAux tk content tokens chunkSize bleed i fuel =
      splitChunksSpecAux tk content tokens chunkSize bleed i fuel := by
  intro fuel
  induction fuel with
  | zero => intro i; rfl
  | succ fuel ih =>
    intro i
    by_cases hi : i < tokens.length
    · simp only [splitChunksAux, splitChunksSpecAux]
      rw [if_pos hi, if_pos hi, ih (i + chunkSize)]
      have hstart : (tk.decode (tokens.take i)).length = i := by
        rw [decode_take_length_single tk tokens hone i]
        omega
      by_cases hend : i + chunkSize < tokens.length
      · have hstop : (tk.decode (tokens.take (i + chunkSize))).length = i + chunkSize := by
          rw [decode_take_length_single tk tokens hone (i + chunkSize)]
          omega
        rw [hstart, hstop]
      · rw [hstart, if_neg hend, if_neg hend]
    · simp only [splitChunksAux, splitChunksSpecAux]
      rw [if_neg hi, if_neg hi]

/-- C6 amended: for positive window sizes and a tokenizer whose decode
inverts encode, splitChunks is a covering: the concatenation of the decoded
core token windows reconstructs the input text exactly.  The bleed padding,
however, is sliced from the character stream at TOKEN-index offsets, so it
equals the literal neighboring characters of a chunk only when every token
decodes to a single character, in which case the source agrees with the
spec-words variant that bleeds at character boundaries. -/
theorem splitChunks_covering_and_bleed (tk : Tokenizer) (content : List Char)
    (chunkSize bleed : Nat) (hpos : 0 < chunkSize)
    (hrt : tk.decode (tk.encode content) = content) :
    ((chunkTokenSpans (tk.encode content) chunkSize 0
        (tk.encode content).length).map tk.decode).flatten = content ∧
    ((∀ t ∈ tk.encode content, (tk.decodeTok t).length = 1) →
      splitChunks tk content chunkSize bleed = splitChunksSpec tk content chunkSize bleed) := by
  constructor
  · rw [← tk.decode_flatten]
    rw [chunkTokenSpans_flatten (tk.encode content) chunkSize hpos
      (tk.encode content).length 0 (by omega)]
    rw [List.drop_zero]
    exact hrt
  · intro hone
    exact splitChunksAux_eq_spec_single tk content (tk.encode content) chunkSize bleed hone
      (tk.encode content).length 0

/-- Witness for C6's amended theorem at a concrete input: the text "abcd"
under the one-token-per-character tokenizer with window 2, bleed 1. -/
theorem splitChunks_covering_and_bleed_witness :
    ((chunkTokenSpans (tkChar.encode ['a', 'b', 'c', 'd']) 2 0
        (tkChar.encode ['a', 'b', 'c', 'd']).length).map tkChar.decode).flatten =
      ['a', 'b', 'c', 'd'] ∧
    ((∀ t ∈ tkChar.encode ['a', 'b', 'c', 'd'], (tkChar.decodeTok t).length = 1) →
      splitChunks tkChar ['a', 'b', 'c', 'd'] 2 1 =
        splitChunksSpec tkChar ['a', 'b', 'c', 'd'] 2 1) :=
  splitChunks_covering_and_bleed tkChar ['a', 'b', 'c', 'd'] 2 1 (by decide) (by decide)
